import Mathlib

/-!
Shallow embedding of `tailassignment_oop.py` (QAOA tail-assignment problem):
the cost model, the Hamiltonian-to-circuit gate translators, the circuit
builder, and the statistics extractors, together with theorems checking the
specification's claims about them.  Numeric values are modelled over `ℚ`.
-/

namespace TailAssignmentModel

/- ## Definitions: the embedded program -/

/-- Problem data held by a `QAOATailAssignment` object: the constraint matrix
`FR` (rows = tasks, columns = resources), the cost vector `CR`, and the
penalty weight `mu` (source lines 18-20). -/
structure QAOATailAssignment where
  FR : List (List ℚ)
  CR : List ℚ
  mu : ℚ

/-- Number of qubits / resources: the column count of `FR`
(source line 22: `self.F, self.R = np.shape(self.FR)`). -/
def QAOATailAssignment.R (ta : QAOATailAssignment) : Nat :=
  (ta.FR.headD []).length

/-- Dot product of two rational vectors (numpy `@`). -/
def dot (u v : List ℚ) : ℚ :=
  (List.zipWith (fun a b => a * b) u v).sum

/-- Numeric value of one bit (numpy bools/ints coerce this way). -/
def bitVal (b : Bool) : ℚ := if b then 1 else 0

/-- The 0/1 assignment vector read off a measured bitstring: the bit order is
reversed before array conversion (source lines 28 and 217:
`np.array(list(map(int, binstring[::-1])))`). -/
def toAssignment (s : List Bool) : List ℚ :=
  s.reverse.map bitVal

/-- `cost` (source lines 25-29):
`-((CR @ x) + mu * np.sum((1 - (FR @ x))**2))` with `x` the bit-reversed
assignment vector. -/
def cost (ta : QAOATailAssignment) (s : List Bool) : ℚ :=
  -((dot ta.CR (toAssignment s))
    + ta.mu * ((ta.FR.map (fun row => (1 - dot row (toAssignment s)) ^ 2)).sum))

/-- `is_solution` (source lines 216-218):
`np.all(np.sum(self.FR * a, 1) - 1 == 0)` with `a` the bit-reversed
assignment vector, i.e. every row of `FR` weighted by `a` sums to exactly 1. -/
def is_solution (ta : QAOATailAssignment) (s : List Bool) : Bool :=
  ta.FR.all (fun row => decide (dot row (toAssignment s) = 1))

/-- An element of the emitted gate sequence (the operations invoked on
`self.qc`): single-qubit `rz`/`rx` rotations, the two-qubit `cx` gate,
a barrier, the initial-state preparation, and the final measurement of the
whole register. -/
inductive Gate where
  | rz : ℚ → Nat → Gate
  | rx : ℚ → Nat → Gate
  | cx : Nat → Nat → Gate
  | barrier : Gate
  | initialState : Nat → Gate
  | measureAll : Gate
deriving DecidableEq

/-- Column `r` of `FR` (numpy `FR[:,r]`). -/
def col (FR : List (List ℚ)) (r : Nat) : List ℚ :=
  FR.map (fun row => row.getD r 0)

/-- `np.sum(FR, axis=1) - 2`: the row sums of `FR`, each shifted by `-2`. -/
def rowSumsMinus2 (FR : List (List ℚ)) : List ℚ :=
  FR.map (fun row => row.sum - 2)

/-- Local-field coefficient of `apply_cost` (source line 83):
`hr = 0.5 * CR[r]`. -/
def hrCost (CR : List ℚ) (r : Nat) : ℚ :=
  (1 / 2) * CR.getD r 0

/-- Local-field coefficient of `apply_exco` (source line 57):
`hr = 0.5 * mu * FR[:,r] @ (np.sum(FR, axis=1) - 2)`. -/
def hrExco (FR : List (List ℚ)) (mu : ℚ) (r : Nat) : ℚ :=
  (1 / 2) * mu * dot (col FR r) (rowSumsMinus2 FR)

/-- Local-field coefficient of `apply_hamiltonian` (source line 100):
`hr = 0.5 * CR[r] + 0.5 * mu * FR[:,r] @ (np.sum(FR, axis=1) - 2)`. -/
def hrHam (FR : List (List ℚ)) (CR : List ℚ) (mu : ℚ) (r : Nat) : ℚ :=
  (1 / 2) * CR.getD r 0 + (1 / 2) * mu * dot (col FR r) (rowSumsMinus2 FR)

/-- Coupling coefficient (source lines 62 and 105):
`Jrr_ = 0.5 * FR[:,r] @ FR[:,r_]`. -/
def jCoupling (FR : List (List ℚ)) (r r_ : Nat) : ℚ :=
  (1 / 2) * dot (col FR r) (col FR r_)

/-- The inner pairwise-coupling loop shared by `apply_exco` (source lines
61-68) and `apply_hamiltonian` (source lines 104-111): for `r_` in
`range(r+1, R)`, a `cx`/`rz(gamma*Jrr_)`/`cx` triple. -/
def couplingGates (FR : List (List ℚ)) (gamma : ℚ) (R r : Nat) : List Gate :=
  (List.range' (r + 1) (R - (r + 1))).flatMap (fun q =>
    [Gate.cx r q, Gate.rz (gamma * jCoupling FR r q) q, Gate.cx r q])

/-- `apply_exco` (source lines 44-68). -/
def apply_exco (ta : QAOATailAssignment) (gamma : ℚ) : List Gate :=
  (List.range ta.R).flatMap (fun r =>
    Gate.rz (gamma * hrExco ta.FR ta.mu r) r :: couplingGates ta.FR gamma ta.R r)

/-- `apply_cost` (source lines 70-85). -/
def apply_cost (ta : QAOATailAssignment) (gamma : ℚ) : List Gate :=
  (List.range ta.R).map (fun r => Gate.rz (gamma * hrCost ta.CR r) r)

/-- `apply_hamiltonian` (source lines 87-111). -/
def apply_hamiltonian (ta : QAOATailAssignment) (gamma : ℚ) : List Gate :=
  (List.range ta.R).flatMap (fun r =>
    Gate.rz (gamma * hrHam ta.FR ta.CR ta.mu r) r :: couplingGates ta.FR gamma ta.R r)

/-- `mix_states` (source lines 31-42): `rx(-2*beta)` on the whole register. -/
def mix_states (ta : QAOATailAssignment) (beta : ℚ) : List Gate :=
  (List.range ta.R).map (fun q => Gate.rx (-2 * beta) q)

/-- Written from the claim's words: `apply_hamiltonian` emits, for each qubit
`r` in `0..R-1`, one phase rotation with angle
`gamma*(0.5*CR[r] + 0.5*mu*FR[:,r]·(rowsum(FR)-2))`, then for each `r_` in
`r+1..R-1` one `cx` / `rz(gamma*0.5*FR[:,r]·FR[:,r_])` / `cx` triple. -/
def hamiltonianGatesSpec (ta : QAOATailAssignment) (gamma : ℚ) : List Gate :=
  (List.range ta.R).flatMap (fun r =>
    Gate.rz (gamma * ((1 / 2) * ta.CR.getD r 0
      + (1 / 2) * ta.mu * dot (col ta.FR r) (rowSumsMinus2 ta.FR))) r ::
    (List.range' (r + 1) (ta.R - (r + 1))).flatMap (fun q =>
      [Gate.cx r q,
       Gate.rz (gamma * ((1 / 2) * dot (col ta.FR r) (col ta.FR q))) q,
       Gate.cx r q]))

/-- Written from the claim's words: `apply_exco` emits the same structure as
`apply_hamiltonian` but with the local-field angle
`gamma*0.5*mu*FR[:,r]·(rowsum(FR)-2)`. -/
def excoGatesSpec (ta : QAOATailAssignment) (gamma : ℚ) : List Gate :=
  (List.range ta.R).flatMap (fun r =>
    Gate.rz (gamma * ((1 / 2) * ta.mu * dot (col ta.FR r) (rowSumsMinus2 ta.FR))) r ::
    (List.range' (r + 1) (ta.R - (r + 1))).flatMap (fun q =>
      [Gate.cx r q,
       Gate.rz (gamma * ((1 / 2) * dot (col ta.FR r) (col ta.FR q))) q,
       Gate.cx r q]))

/-- The control/target pairs of the `cx` gates occurring in a gate list. -/
def cxPairs (gs : List Gate) : List (Nat × Nat) :=
  gs.filterMap (fun g => match g with | Gate.cx c t => some (c, t) | _ => none)

/-- Binary digits of `n`, most significant bit first, with explicit fuel so
that the definition is structurally recursive (empty for `n = 0`). -/
def natBitsAux : Nat → Nat → List Bool
  | 0, _ => []
  | fuel + 1, n => if n = 0 then [] else natBitsAux fuel (n / 2) ++ [n % 2 == 1]

/-- Python `"{0:b}".format(n)` as a list of bits, most significant first. -/
def binStringOfNat (n : Nat) : List Bool :=
  if n = 0 then [false] else natBitsAux (n + 1) n

/-- Python `str.zfill` on bitstrings: left-pad with `0` bits to length `R`. -/
def zfill (R : Nat) (s : List Bool) : List Bool :=
  List.replicate (R - s.length) false ++ s

/-- The bitstring decoded from an integer measurement key (source lines 256
and 315: `"{0:b}".format(int(hexkey, 0)).zfill(R)`). -/
def keyString (R key : Nat) : List Bool :=
  zfill R (binStringOfNat key)

/-- Modelled from the spec: `self.state_strings` is defined in the base class
`QAOAStandard` (module `qaoa_OOP`, absent from the sources); per the spec the
exact-mode probability vector is "indexed by the same enumeration order as
all-possible-bitstrings", so it enumerates the bitstrings of all state
indices `0..2^R-1` in order. -/
def stateStrings (R : Nat) : List (List Bool) :=
  (List.range (2 ^ R)).map (fun n => zfill R (binStringOfNat n))

/-- One independent execution result in sampled mode: its shot count and its
histogram, a list of (integer measurement key, occurrence count) pairs
(`result.shots` and `result.data.counts` in the source). -/
structure ExperimentResult where
  shots : Nat
  counts : List (Nat × Nat)

/-- The payload returned by the execution backend: a dense probability vector
(already `|amplitude|^2`, exact mode) and the experiment results (sampled
mode); the branch taken decides which field is read. -/
structure JobResult where
  probs : List ℚ
  results : List ExperimentResult

/-- Exact (statevector) branch of `successProbability` (source lines 237-243):
`self.vector_is_solution(self.state_strings) @ probs`. -/
def successProbabilitySV (ta : QAOATailAssignment) (probs : List ℚ) : ℚ :=
  dot ((stateStrings ta.R).map (fun s => bitVal (is_solution ta s))) probs

/-- A one-qubit problem instance with `FR = [[1]]`, `CR = [1]`, `mu = 1`,
used as concrete input by several witnesses. -/
def taUnit : QAOATailAssignment := ⟨[[1]], [1], 1⟩

/-- Sampled branch of `successProbability` (source lines 245-258): iterate
the experiment results; for every count whose decoded bitstring is a
solution, add `count / n_shots` of that experiment.  Modelled from the spec
for the free names of the loop body: the source reads the module-level names
`rN`, `FR` and `is_Solution` from the missing `qaoa_OOP` module; per the spec
they stand for the register size `R`, the object's constraint matrix, and
its `is_solution` predicate. -/
def successProbabilitySampled (ta : QAOATailAssignment)
    (results : List ExperimentResult) : ℚ :=
  results.foldl
    (fun sprob res =>
      res.counts.foldl
        (fun sp kc =>
          if is_solution ta (keyString ta.R kc.1)
          then sp + (kc.2 : ℚ) / (res.shots : ℚ) else sp)
        sprob)
    0

/-- Number of shots of one experiment result whose measured bitstring
satisfies `is_solution`. -/
def solutionShots (ta : QAOATailAssignment) (res : ExperimentResult) : Nat :=
  ((res.counts.filter (fun kc => is_solution ta (keyString ta.R kc.1))).map
    (fun kc => kc.2)).sum

/-- Written from the claim's words: the total fraction of shots, across all
experiment results, whose measured bitstring satisfies `is_solution`. -/
def totalSolutionFraction (ta : QAOATailAssignment)
    (results : List ExperimentResult) : ℚ :=
  ((results.map (solutionShots ta)).sum : ℚ)
    / ((results.map (fun r => r.shots)).sum : ℚ)

/-- Python `str.split` with a one-character separator, on strings modelled as
lists of characters (`self.backend.name().split('_')`). -/
def splitOnChar (sep : Char) : List Char → List (List Char)
  | [] => [[]]
  | c :: rest =>
      let r := splitOnChar sep rest
      if c = sep then [] :: r
      else (c :: r.headD []) :: r.tail

/-- The mode test used at source lines 154, 195, 237 and 290:
`"statevector" in self.backend.name().split('_')` — membership of the word
"statevector" among the underscore-separated components of the backend
name. -/
def isStatevectorBackend (name : List Char) : Bool :=
  (splitOnChar '_' name).contains "statevector".toList

/-- Numpy slicing `params[::2]`: every second element starting at index 0. -/
def everyOther : List ℚ → List ℚ
  | [] => []
  | [a] => [a]
  | a :: _ :: rest => a :: everyOther rest

/-- `createCircuit` (source lines 113-159): initial state, then per depth
layer the combined Hamiltonian with `gamma = params[::2][d]`, an optional
barrier, the mixer with `beta = params[1::2][d]`, an optional barrier; a
final measurement of the register is appended unless the backend name has a
"statevector" component.  `initial_state` lives in the missing base class;
modelled from the spec as the initial-superposition preparation step. -/
def createCircuit (ta : QAOATailAssignment) (backendName : List Char)
    (usebarrier : Bool) (depth : Nat) (params : List ℚ) : List Gate :=
  Gate.initialState ta.R ::
    ((List.range depth).flatMap (fun d =>
      apply_hamiltonian ta ((everyOther params).getD d 0)
        ++ (if usebarrier then [Gate.barrier] else [])
        ++ mix_states ta ((everyOther params.tail).getD d 0)
        ++ (if usebarrier then [Gate.barrier] else []))
    ++ (if isStatevectorBackend backendName then [] else [Gate.measureAll]))

/-- `successProbability` (source lines 220-260): branch on the backend-name
mode test, then use the dense statevector path or the sparse counts path. -/
def successProbability (ta : QAOATailAssignment) (backendName : List Char)
    (job : JobResult) : ℚ :=
  if isStatevectorBackend backendName then successProbabilitySV ta job.probs
  else successProbabilitySampled ta job.results

/-- Statevector branch of `measurementStatistics` (source lines 290-301):
expectation `costs @ probs` written into slot 0 of a zero-initialised
per-experiment array, no variance, and the ceiling-rounding "best" cost
`np.max(costs @ np.ceil(probs))` folded into `cost_best` (initially
`-inf`, modelled as `⊥` in `WithBot ℚ`). -/
def measurementStatisticsSV (ta : QAOATailAssignment) (job : JobResult) :
    List ℚ × Option ℚ × WithBot ℚ :=
  let costs := (stateStrings ta.R).map (fun s => cost ta s)
  let E := dot costs job.probs
  let best := dot costs (job.probs.map (fun p => ((⌈p⌉ : ℤ) : ℚ)))
  (if job.results.length = 0 then []
   else E :: List.replicate (job.results.length - 1) 0,
   none, max ⊥ (best : WithBot ℚ))

/-- Sampled branch of `measurementStatistics` (source lines 305-321): one
shot-weighted expectation per experiment result, no variance, and the best
cost folded with `max` over every measured bitstring of every result. -/
def measurementStatisticsSampled (ta : QAOATailAssignment) (job : JobResult) :
    List ℚ × Option ℚ × WithBot ℚ :=
  (job.results.map (fun res =>
      res.counts.foldl
        (fun E kc =>
          E + cost ta (keyString ta.R kc.1) * (kc.2 : ℚ) / (res.shots : ℚ)) 0),
   none,
   job.results.foldl
     (fun acc res =>
       res.counts.foldl
         (fun a kc => max a ((cost ta (keyString ta.R kc.1) : WithBot ℚ))) acc)
     ⊥)

/-- `measurementStatistics` (source lines 262-323): branch on the
backend-name mode test. -/
def measurementStatistics (ta : QAOATailAssignment) (backendName : List Char)
    (job : JobResult) : List ℚ × Option ℚ × WithBot ℚ :=
  if isStatevectorBackend backendName then measurementStatisticsSV ta job
  else measurementStatisticsSampled ta job

/-- The flat list of (coerced) costs of every measured bitstring of every
experiment result, in iteration order. -/
def allMeasuredCosts (ta : QAOATailAssignment) (job : JobResult) :
    List (WithBot ℚ) :=
  job.results.flatMap (fun res =>
    res.counts.map (fun kc => ((cost ta (keyString ta.R kc.1) : WithBot ℚ))))

/- ## Theorems -/

theorem sum_map_getD {α : Type} (l : List α) (g : α → ℚ) (d : α) :
    (l.map g).sum = ∑ i ∈ Finset.range l.length, g (l.getD i d) := by
  induction l with
  | nil => simp
  | cons a t ih =>
      rw [List.map_cons, List.sum_cons, List.length_cons, Finset.sum_range_succ']
      simp only [List.getD_cons_succ, List.getD_cons_zero]
      rw [ih]
      ring

theorem dot_eq_sum (u v : List ℚ) (h : v.length = u.length) :
    dot u v = ∑ i ∈ Finset.range u.length, u.getD i 0 * v.getD i 0 := by
  induction u generalizing v with
  | nil => simp [dot]
  | cons a t ih =>
      cases v with
      | nil => simp at h
      | cons b w =>
          simp only [List.length_cons, Nat.succ.injEq] at h
          have : dot (a :: t) (b :: w) = a * b + dot t w := by
            simp [dot, List.zipWith]
          rw [this, List.length_cons, Finset.sum_range_succ']
          simp only [List.getD_cons_succ, List.getD_cons_zero]
          rw [ih w h]
          ring

theorem forall_mem_iff_getD {α : Type} (l : List α) (d : α) (p : α → Prop) :
    (∀ x ∈ l, p x) ↔ ∀ i < l.length, p (l.getD i d) := by
  induction l with
  | nil => simp
  | cons a t ih =>
      constructor
      · intro h i hi
        cases i with
        | zero => exact h a (List.mem_cons_self a t)
        | succ j =>
            simp only [List.getD_cons_succ]
            exact (ih.mp (fun x hx => h x (List.mem_cons_of_mem a hx))) j
              (Nat.lt_of_succ_lt_succ hi)
      · intro h x hx
        rcases List.mem_cons.mp hx with rfl | hx
        · exact h 0 (Nat.succ_pos _)
        · refine (ih.mpr ?_) x hx
          intro i hi
          have := h (i + 1) (Nat.succ_lt_succ hi)
          simpa using this

theorem getD_mem {α : Type} (l : List α) (i : Nat) (d : α) (h : i < l.length) :
    l.getD i d ∈ l := by
  induction l generalizing i with
  | nil => simp at h
  | cons a t ih =>
      cases i with
      | zero => exact List.mem_cons_self a t
      | succ j =>
          simp only [List.getD_cons_succ]
          exact List.mem_cons_of_mem a (ih j (Nat.lt_of_succ_lt_succ h))

/-- C1: for every bitstring of length `R` (with well-formed problem data),
`cost` returns the negative of the linear term `CR·x` plus `mu` times the sum
over rows `f` of `(1 - (FR·x)_f)^2`, where `x` is the 0/1 vector obtained by
reversing the bit order of the input string before array conversion. -/
theorem cost_formula (ta : QAOATailAssignment) (s : List Bool)
    (hCR : ta.CR.length = ta.R)
    (hFR : ∀ row ∈ ta.FR, row.length = ta.R)
    (hs : s.length = ta.R) :
    cost ta s =
      -((∑ i ∈ Finset.range ta.R, ta.CR.getD i 0 * (toAssignment s).getD i 0)
        + ta.mu * ∑ f ∈ Finset.range ta.FR.length,
            (1 - ∑ i ∈ Finset.range ta.R,
               (ta.FR.getD f []).getD i 0 * (toAssignment s).getD i 0) ^ 2) := by
  have hxlen : (toAssignment s).length = ta.R := by
    simp [toAssignment, hs]
  have hlin : dot ta.CR (toAssignment s)
      = ∑ i ∈ Finset.range ta.R, ta.CR.getD i 0 * (toAssignment s).getD i 0 := by
    rw [dot_eq_sum _ _ (by rw [hxlen, hCR]), hCR]
  have hpen : (ta.FR.map (fun row => (1 - dot row (toAssignment s)) ^ 2)).sum
      = ∑ f ∈ Finset.range ta.FR.length,
          (1 - ∑ i ∈ Finset.range ta.R,
             (ta.FR.getD f []).getD i 0 * (toAssignment s).getD i 0) ^ 2 := by
    rw [sum_map_getD ta.FR _ []]
    refine Finset.sum_congr rfl ?_
    intro f hf
    have hfmem : ta.FR.getD f [] ∈ ta.FR :=
      getD_mem _ _ _ (Finset.mem_range.mp hf)
    have hrow : (ta.FR.getD f []).length = ta.R := hFR _ hfmem
    rw [dot_eq_sum _ _ (by rw [hxlen, hrow]), hrow]
  rw [cost, hlin, hpen]

/-- C1 witness: the formula evaluated on the end-to-end scenario
`FR = [[1,0],[0,1]]`, `CR = [1,1]`, `mu = 1`, bitstring "11". -/
theorem cost_formula_witness :
    cost ⟨[[1, 0], [0, 1]], [1, 1], 1⟩ [true, true] =
      -((∑ i ∈ Finset.range (QAOATailAssignment.R ⟨[[1, 0], [0, 1]], [1, 1], 1⟩),
            (([1, 1] : List ℚ)).getD i 0 * (toAssignment [true, true]).getD i 0)
        + (1 : ℚ) * ∑ f ∈ Finset.range ([[1, 0], [0, 1]] : List (List ℚ)).length,
            (1 - ∑ i ∈ Finset.range (QAOATailAssignment.R ⟨[[1, 0], [0, 1]], [1, 1], 1⟩),
               (([[1, 0], [0, 1]] : List (List ℚ)).getD f []).getD i 0
                 * (toAssignment [true, true]).getD i 0) ^ 2) :=
  cost_formula ⟨[[1, 0], [0, 1]], [1, 1], 1⟩ [true, true] rfl
    (by intro row hrow; fin_cases hrow <;> rfl) rfl

/-- C2: for every bitstring of length `R` (with rectangular `FR`),
`is_solution` returns true if and only if every row of `FR`, weighted by the
bit-reversed 0/1 assignment vector and summed, equals exactly 1.  The
embedding is a pure Boolean predicate, matching the no-side-effects claim. -/
theorem is_solution_iff (ta : QAOATailAssignment) (s : List Bool)
    (hFR : ∀ row ∈ ta.FR, row.length = ta.R)
    (hs : s.length = ta.R) :
    is_solution ta s = true ↔
      ∀ f < ta.FR.length,
        ∑ i ∈ Finset.range ta.R,
          (ta.FR.getD f []).getD i 0 * (toAssignment s).getD i 0 = 1 := by
  have hxlen : (toAssignment s).length = ta.R := by
    simp [toAssignment, hs]
  rw [is_solution, List.all_eq_true]
  have h1 : (∀ row ∈ ta.FR, decide (dot row (toAssignment s) = 1) = true)
      ↔ ∀ row ∈ ta.FR, dot row (toAssignment s) = 1 := by
    constructor
    · intro h row hrow; exact of_decide_eq_true (h row hrow)
    · intro h row hrow; exact decide_eq_true (h row hrow)
  rw [h1, forall_mem_iff_getD ta.FR [] (fun row => dot row (toAssignment s) = 1)]
  constructor
  · intro h f hf
    have hrow : (ta.FR.getD f []).length = ta.R := hFR _ (getD_mem _ _ _ hf)
    rw [← hrow, ← dot_eq_sum _ _ (by rw [hxlen, hrow])]
    exact h f hf
  · intro h f hf
    have hrow : (ta.FR.getD f []).length = ta.R := hFR _ (getD_mem _ _ _ hf)
    rw [dot_eq_sum _ _ (by rw [hxlen, hrow]), hrow]
    exact h f hf

/-- C2 witness: the predicate evaluated on `FR = [[1,0],[0,1]]`, bitstring
"11" (a feasible assignment). -/
theorem is_solution_iff_witness :
    (is_solution ⟨[[1, 0], [0, 1]], [1, 1], 1⟩ [true, true] = true ↔
      ∀ f < ([[1, 0], [0, 1]] : List (List ℚ)).length,
        ∑ i ∈ Finset.range (QAOATailAssignment.R ⟨[[1, 0], [0, 1]], [1, 1], 1⟩),
          (([[1, 0], [0, 1]] : List (List ℚ)).getD f []).getD i 0
            * (toAssignment [true, true]).getD i 0 = 1) :=
  is_solution_iff ⟨[[1, 0], [0, 1]], [1, 1], 1⟩ [true, true]
    (by intro row hrow; fin_cases hrow <;> rfl) rfl

/-- C10: on every bitstring accepted by `is_solution`, the quadratic penalty
vanishes, so `cost` equals exactly `-(CR·x)` with `x` the bit-reversed 0/1
vector, independently of the penalty weight `mu`. -/
theorem cost_of_solution (ta : QAOATailAssignment) (s : List Bool)
    (h : is_solution ta s = true) :
    cost ta s = -(dot ta.CR (toAssignment s)) := by
  have hz : (ta.FR.map (fun row => (1 - dot row (toAssignment s)) ^ 2)).sum = 0 := by
    apply List.sum_eq_zero
    intro x hx
    rcases List.mem_map.mp hx with ⟨row, hrow, rfl⟩
    have hrow1 : dot row (toAssignment s) = 1 :=
      of_decide_eq_true ((List.all_eq_true.mp h) row hrow)
    rw [hrow1]
    ring
  rw [cost, hz]
  ring

/-- C10 witness: on `FR = [[1,0],[0,1]]`, `CR = [1,1]`, `mu = 1`, the feasible
bitstring "11" has cost exactly `-(CR·x)`. -/
theorem cost_of_solution_witness :
    cost ⟨[[1, 0], [0, 1]], [1, 1], 1⟩ [true, true]
      = -(dot [1, 1] (toAssignment [true, true])) :=
  cost_of_solution ⟨[[1, 0], [0, 1]], [1, 1], 1⟩ [true, true]
    (by norm_num [is_solution, dot, toAssignment, bitVal])

theorem cxPairs_flatMap {α : Type} (l : List α) (g : α → List Gate) :
    cxPairs (l.flatMap g) = l.flatMap (fun x => cxPairs (g x)) := by
  induction l with
  | nil => rfl
  | cons a t ih =>
      rw [List.flatMap_cons, List.flatMap_cons, ← ih]
      exact List.filterMap_append _ _ _

theorem count_flatMap {α β : Type} [BEq β] (p : β) (l : List α)
    (g : α → List β) :
    ((l.flatMap g).count p) = (l.map (fun x => (g x).count p)).sum := by
  induction l with
  | nil => rfl
  | cons a t ih =>
      rw [List.flatMap_cons, List.count_append, List.map_cons, List.sum_cons, ih]

theorem count_pair_doubled (a b r s n : Nat) :
    (((List.range' s n).flatMap (fun q => [(r, q), (r, q)])).count (a, b))
      = if a = r ∧ s ≤ b ∧ b < s + n then 2 else 0 := by
  induction n generalizing s with
  | zero =>
      rw [List.range'_zero, List.flatMap_nil, List.count_nil, if_neg]
      omega
  | succ n ih =>
      rw [List.range'_succ, List.flatMap_cons, List.count_append, ih (s + 1)]
      have hc : List.count (a, b) [(r, s), (r, s)] = if a = r ∧ b = s then 2 else 0 := by
        by_cases h : a = r ∧ b = s
        · obtain ⟨rfl, rfl⟩ := h
          rw [if_pos ⟨rfl, rfl⟩]
          simp [List.count_cons]
        · have hne : (a, b) ≠ (r, s) := by
            intro he
            exact h ⟨congrArg Prod.fst he, congrArg Prod.snd he⟩
          rw [if_neg h, List.count_eq_zero_of_not_mem]
          simp [hne]
      rw [hc]
      split_ifs <;> omega

theorem sum_indicator_range (R a : Nat) (c : Nat → Nat) :
    ((List.range R).map (fun r => if r = a then c r else 0)).sum
      = if a < R then c a else 0 := by
  induction R with
  | zero => simp
  | succ R ih =>
      rw [List.range_succ, List.map_append, List.sum_append, ih]
      simp only [List.map_cons, List.map_nil, List.sum_cons, List.sum_nil]
      by_cases h : R = a
      · subst h
        rw [if_pos rfl, if_neg (Nat.lt_irrefl R), if_pos (Nat.lt_succ_self R)]
        omega
      · rw [if_neg h]
        by_cases h2 : a < R
        · rw [if_pos h2, if_pos (by omega)]
          omega
        · rw [if_neg h2, if_neg (by omega)]
          omega

theorem cxPairs_apply_hamiltonian (ta : QAOATailAssignment) (gamma : ℚ) :
    cxPairs (apply_hamiltonian ta gamma)
      = (List.range ta.R).flatMap (fun r =>
          (List.range' (r + 1) (ta.R - (r + 1))).flatMap (fun q => [(r, q), (r, q)])) := by
  rw [apply_hamiltonian, cxPairs_flatMap]
  refine congrArg (List.flatMap (List.range ta.R)) (funext fun r => ?_)
  show cxPairs (couplingGates ta.FR gamma ta.R r)
      = (List.range' (r + 1) (ta.R - (r + 1))).flatMap fun q => [(r, q), (r, q)]
  rw [couplingGates, cxPairs_flatMap]
  rfl

/-- C3: `apply_hamiltonian` emits, per qubit `r`, one phase rotation with the
combined local-field angle followed by the `cx`/`rz`/`cx` coupling triples for
`r_` in `r+1..R-1`; `apply_exco` emits the same structure with its own
local-field angle; and the coupling loop visits each unordered qubit pair
exactly once (each upper-triangle pair contributes exactly one triple, i.e.
exactly two `cx` occurrences; self pairs and lower-triangle pairs never
occur). -/
theorem apply_gate_structure (ta : QAOATailAssignment) (gamma : ℚ) :
    apply_hamiltonian ta gamma = hamiltonianGatesSpec ta gamma ∧
    apply_exco ta gamma = excoGatesSpec ta gamma ∧
    ∀ a b : Nat, (cxPairs (apply_hamiltonian ta gamma)).count (a, b)
      = if a < b ∧ b < ta.R then 2 else 0 := by
  refine ⟨rfl, rfl, ?_⟩
  intro a b
  rw [cxPairs_apply_hamiltonian, count_flatMap]
  have hpt : ∀ r : Nat,
      (((List.range' (r + 1) (ta.R - (r + 1))).flatMap
          (fun q => [(r, q), (r, q)])).count (a, b))
        = if r = a then (if r + 1 ≤ b ∧ b < r + 1 + (ta.R - (r + 1)) then 2 else 0)
          else 0 := by
    intro r
    rw [count_pair_doubled]
    by_cases h : r = a
    · subst h
      rw [if_pos rfl]
      by_cases h2 : r + 1 ≤ b ∧ b < r + 1 + (ta.R - (r + 1))
      · rw [if_pos ⟨rfl, h2.1, h2.2⟩, if_pos h2]
      · rw [if_neg (by tauto), if_neg h2]
    · rw [if_neg (by tauto), if_neg h]
  simp only [hpt]
  rw [sum_indicator_range]
  split_ifs <;> omega

/-- C4: for every problem instance, angle, and qubit `r`, the local-field
rotation angle `gamma * hrHam` emitted on qubit `r` by `apply_hamiltonian`
equals the sum of the rotation angle `gamma * hrCost` emitted on `r` by
`apply_cost` and the local-field angle `gamma * hrExco` emitted on `r` by
`apply_exco`, so the one-call path is algebraically equivalent to the two-call
path. -/
theorem local_field_additive (ta : QAOATailAssignment) (gamma : ℚ) (r : Nat) :
    gamma * hrHam ta.FR ta.CR ta.mu r
      = gamma * hrCost ta.CR r + gamma * hrExco ta.FR ta.mu r := by
  rw [hrHam, hrCost, hrExco]
  ring

theorem list_sum_nonneg (l : List ℚ) (h : ∀ x ∈ l, 0 ≤ x) : 0 ≤ l.sum := by
  induction l with
  | nil => simp
  | cons a t ih =>
      rw [List.sum_cons]
      exact add_nonneg (h a (List.mem_cons_self a t))
        (ih fun x hx => h x (List.mem_cons_of_mem a hx))

theorem dot_cons (a b : ℚ) (t w : List ℚ) :
    dot (a :: t) (b :: w) = a * b + dot t w := by
  simp [dot, List.zipWith]

theorem dot_nonneg (u v : List ℚ) (hu : ∀ x ∈ u, 0 ≤ x) (hv : ∀ x ∈ v, 0 ≤ x) :
    0 ≤ dot u v := by
  induction u generalizing v with
  | nil => simp [dot]
  | cons a t ih =>
      cases v with
      | nil => simp [dot]
      | cons b w =>
          rw [dot_cons]
          refine add_nonneg
            (mul_nonneg (hu a (List.mem_cons_self a t)) (hv b (List.mem_cons_self b w)))
            (ih w (fun x hx => hu x (List.mem_cons_of_mem a hx))
              (fun x hx => hv x (List.mem_cons_of_mem b hx)))

theorem dot_le_sum (u v : List ℚ) (hu : ∀ x ∈ u, 0 ≤ x ∧ x ≤ 1)
    (hv : ∀ x ∈ v, 0 ≤ x) : dot u v ≤ v.sum := by
  induction v generalizing u with
  | nil =>
      cases u <;> simp [dot]
  | cons b w ih =>
      cases u with
      | nil =>
          have h0 : dot [] (b :: w) = 0 := by simp [dot]
          rw [h0]
          exact list_sum_nonneg _ hv
      | cons a t =>
          rw [dot_cons, List.sum_cons]
          refine add_le_add ?_
            (ih t (fun x hx => hu x (List.mem_cons_of_mem a hx))
              (fun x hx => hv x (List.mem_cons_of_mem b hx)))
          have ha := hu a (List.mem_cons_self a t)
          have hb := hv b (List.mem_cons_self b w)
          calc a * b ≤ 1 * b := mul_le_mul_of_nonneg_right ha.2 hb
          _ = b := one_mul b

theorem getD_map {α β : Type} (f : α → β) (l : List α) (i : Nat) (d : α)
    (d' : β) (h : i < l.length) :
    (l.map f).getD i d' = f (l.getD i d) := by
  induction l generalizing i with
  | nil => simp at h
  | cons a t ih =>
      cases i with
      | zero => rfl
      | succ j =>
          simp only [List.map_cons, List.getD_cons_succ]
          exact ih j (Nat.lt_of_succ_lt_succ h)

/-- C5: in exact mode, for every probability vector indexed by the
all-bitstrings enumeration, `successProbability` returns the dot product of
the `is_solution` indicator vector with the probability vector, which equals
the sum of the probabilities of the solution states and lies between 0 and 1
inclusive. -/
theorem successProbabilitySV_formula (ta : QAOATailAssignment) (probs : List ℚ)
    (hlen : probs.length = 2 ^ ta.R)
    (hpos : ∀ p ∈ probs, 0 ≤ p) (hsum : probs.sum = 1) :
    successProbabilitySV ta probs
      = (∑ n ∈ Finset.range (2 ^ ta.R),
          if is_solution ta ((stateStrings ta.R).getD n []) = true
          then probs.getD n 0 else 0)
    ∧ 0 ≤ successProbabilitySV ta probs
    ∧ successProbabilitySV ta probs ≤ 1 := by
  have hslen : (stateStrings ta.R).length = 2 ^ ta.R := by
    simp [stateStrings]
  have hulen : ((stateStrings ta.R).map (fun s => bitVal (is_solution ta s))).length
      = 2 ^ ta.R := by
    simp [stateStrings]
  refine ⟨?_, ?_, ?_⟩
  · rw [successProbabilitySV, dot_eq_sum _ _ (by rw [hlen, hulen]), hulen]
    refine Finset.sum_congr rfl ?_
    intro n hn
    have hn2 : n < (stateStrings ta.R).length := by
      rw [hslen]; exact Finset.mem_range.mp hn
    rw [getD_map _ _ _ [] _ hn2]
    cases h : is_solution ta ((stateStrings ta.R).getD n []) <;>
      simp [bitVal, h]
  · refine dot_nonneg _ _ ?_ hpos
    intro x hx
    rcases List.mem_map.mp hx with ⟨s, _, rfl⟩
    cases is_solution ta s <;> simp [bitVal]
  · have hle : successProbabilitySV ta probs ≤ probs.sum := by
      refine dot_le_sum _ _ ?_ hpos
      intro x hx
      rcases List.mem_map.mp hx with ⟨s, _, rfl⟩
      cases is_solution ta s <;> simp [bitVal]
    rw [hsum] at hle
    exact hle

/-- C5 witness: the formula on the uniform one-qubit probability vector. -/
theorem successProbabilitySV_formula_witness :
    successProbabilitySV taUnit [1 / 2, 1 / 2]
      = (∑ n ∈ Finset.range (2 ^ taUnit.R),
          if is_solution taUnit ((stateStrings taUnit.R).getD n []) = true
          then ([1 / 2, 1 / 2] : List ℚ).getD n 0 else 0)
    ∧ 0 ≤ successProbabilitySV taUnit [1 / 2, 1 / 2]
    ∧ successProbabilitySV taUnit [1 / 2, 1 / 2] ≤ 1 :=
  successProbabilitySV_formula taUnit [1 / 2, 1 / 2] rfl
    (by intro p hp; fin_cases hp <;> norm_num)
    (by norm_num)

theorem foldl_add_eq {α : Type} (l : List α) (f : α → ℚ) (init : ℚ) :
    l.foldl (fun a x => a + f x) init = init + (l.map f).sum := by
  induction l generalizing init with
  | nil => simp
  | cons a t ih =>
      rw [List.foldl_cons, ih, List.map_cons, List.sum_cons]
      ring

theorem foldl_add_filter {α : Type} (p : α → Bool) (f : α → ℚ) (l : List α)
    (init : ℚ) :
    l.foldl (fun a x => if p x then a + f x else a) init
      = init + ((l.filter p).map f).sum := by
  induction l generalizing init with
  | nil => simp
  | cons a t ih =>
      rw [List.foldl_cons]
      by_cases h : p a = true
      · rw [if_pos h, ih, List.filter_cons_of_pos h, List.map_cons, List.sum_cons]
        ring
      · rw [if_neg (by simp [h]), ih,
          List.filter_cons_of_neg (by simp [Bool.not_eq_true] at h ⊢; exact h)]

theorem sum_map_div {α : Type} (l : List α) (f : α → ℚ) (c : ℚ) :
    (l.map (fun x => f x / c)).sum = (l.map f).sum / c := by
  induction l with
  | nil => simp
  | cons a t ih => simp [List.map_cons, List.sum_cons, ih, add_div]

/-- Per-experiment accumulation step of the sampled success probability:
one experiment result adds exactly its own solution-shot fraction. -/
theorem successProbabilitySampled_step (ta : QAOATailAssignment)
    (shots : Nat) (counts : List (Nat × Nat)) (sprob : ℚ) :
    counts.foldl
      (fun sp kc =>
        if is_solution ta (keyString ta.R kc.1)
        then sp + (kc.2 : ℚ) / (shots : ℚ) else sp)
      sprob
      = sprob + (((((counts.filter
            (fun kc => is_solution ta (keyString ta.R kc.1))).map
              (fun kc => kc.2)).sum : ℕ)) : ℚ) / (shots : ℚ) := by
  induction counts generalizing sprob with
  | nil => simp
  | cons kc t ih =>
      rw [List.foldl_cons, List.filter_cons]
      by_cases h : is_solution ta (keyString ta.R kc.1) = true
      · rw [if_pos h, if_pos h, ih, List.map_cons, List.sum_cons]
        push_cast
        ring
      · rw [if_neg (by simp [h]), if_neg (by simp [h]), ih]

/-- C6 counterexample: with two experiment results of one shot each, where
the first shot measures a solution and the second does not, the code returns
`1/1 + 0/1 = 1`, while the total fraction of solution shots is `1/2`. -/
theorem successProbabilitySampled_ne_total_fraction :
    successProbabilitySampled taUnit [⟨1, [(1, 1)]⟩, ⟨1, [(0, 1)]⟩]
      ≠ totalSolutionFraction taUnit [⟨1, [(1, 1)]⟩, ⟨1, [(0, 1)]⟩] := by
  have hk1 : keyString taUnit.R 1 = [true] := rfl
  have hk0 : keyString taUnit.R 0 = [false] := rfl
  have hs1 : is_solution taUnit [true] = true := by
    norm_num [is_solution, taUnit, dot, toAssignment, bitVal]
  have hs0 : is_solution taUnit [false] = false := by
    norm_num [is_solution, taUnit, dot, toAssignment, bitVal]
  simp only [successProbabilitySampled, totalSolutionFraction, solutionShots,
    List.foldl_cons, List.foldl_nil, List.filter_cons, List.filter_nil,
    List.map_cons, List.map_nil, List.sum_cons, List.sum_nil,
    hk1, hk0, hs1, hs0]
  norm_num

/-- C6 (amended): `successProbability` in sampled mode returns the sum over
experiment results of the fraction of that result's shots whose bitstring
satisfies `is_solution` (equal to the total fraction only when there is a
single experiment result); on the example counts `{"001": 7, "110": 3}` with
10 shots, where "001" is a solution and "110" is not, it returns exactly
`0.7`. -/
theorem successProbabilitySampled_formula (ta : QAOATailAssignment)
    (results : List ExperimentResult) :
    successProbabilitySampled ta results
      = (results.map
          (fun res => (solutionShots ta res : ℚ) / (res.shots : ℚ))).sum
    ∧ successProbabilitySampled ⟨[[1, 0, 0]], [1, 1, 1], 1⟩
        [⟨10, [(1, 7), (6, 3)]⟩] = 7 / 10 := by
  constructor
  · rw [successProbabilitySampled]
    have hfun : (fun (sprob : ℚ) (res : ExperimentResult) =>
        res.counts.foldl
          (fun sp kc =>
            if is_solution ta (keyString ta.R kc.1)
            then sp + (kc.2 : ℚ) / (res.shots : ℚ) else sp)
          sprob)
        = fun sprob res => sprob + (solutionShots ta res : ℚ) / (res.shots : ℚ) :=
      funext fun sprob => funext fun res =>
        successProbabilitySampled_step ta res.shots res.counts sprob
    rw [hfun, foldl_add_eq, zero_add]
  · have hk1 : keyString (QAOATailAssignment.R ⟨[[1, 0, 0]], [1, 1, 1], 1⟩) 1
        = [false, false, true] := rfl
    have hk6 : keyString (QAOATailAssignment.R ⟨[[1, 0, 0]], [1, 1, 1], 1⟩) 6
        = [true, true, false] := rfl
    have hs1 : is_solution ⟨[[1, 0, 0]], [1, 1, 1], 1⟩ [false, false, true] = true := by
      norm_num [is_solution, dot, toAssignment, bitVal]
    have hs6 : is_solution ⟨[[1, 0, 0]], [1, 1, 1], 1⟩ [true, true, false] = false := by
      norm_num [is_solution, dot, toAssignment, bitVal]
    simp only [successProbabilitySampled, List.foldl_cons, List.foldl_nil,
      hk1, hk6, hs1, hs6]
    norm_num

theorem measureAll_not_mem_couplingGates (FR : List (List ℚ)) (gamma : ℚ)
    (R r : Nat) : Gate.measureAll ∉ couplingGates FR gamma R r := by
  intro h
  rcases List.mem_flatMap.mp h with ⟨q, _, hq⟩
  simp at hq

theorem measureAll_not_mem_apply_hamiltonian (ta : QAOATailAssignment)
    (gamma : ℚ) : Gate.measureAll ∉ apply_hamiltonian ta gamma := by
  intro h
  rcases List.mem_flatMap.mp h with ⟨r, _, hr⟩
  rcases List.mem_cons.mp hr with h1 | h2
  · exact Gate.noConfusion h1
  · exact measureAll_not_mem_couplingGates _ _ _ _ h2

theorem measureAll_not_mem_mix_states (ta : QAOATailAssignment) (beta : ℚ) :
    Gate.measureAll ∉ mix_states ta beta := by
  intro h
  rcases List.mem_map.mp h with ⟨q, _, he⟩
  exact Gate.noConfusion he

/-- C7 counterexample: the backend name "statevector9" contains the substring
"statevector", yet the code selects sampled mode for it and `createCircuit`
appends a final measurement, contradicting the claim that exact mode is
selected whenever the name contains the substring. -/
theorem backend_substring_counterexample :
    (∃ pre post : List Char,
      "statevector9".toList = pre ++ "statevector".toList ++ post)
    ∧ isStatevectorBackend "statevector9".toList = false
    ∧ Gate.measureAll ∈ createCircuit taUnit "statevector9".toList false 0 [] := by
  refine ⟨⟨[], ['9'], rfl⟩, rfl, ?_⟩
  show Gate.measureAll ∈ Gate.initialState taUnit.R :: ([] ++ [Gate.measureAll])
  simp

/-- C7 (amended): exact (statevector) mode is selected if and only if
"statevector" is one of the underscore-separated components of the backend
name (not: if the name contains the substring "statevector"); in exact mode
`createCircuit` appends no final measurement and both statistics extractors
take the dense statevector branch, while in every other case a final
measurement is appended and the sparse counts branch is taken. -/
theorem backend_mode_selection (ta : QAOATailAssignment) (name : List Char)
    (usebarrier : Bool) (depth : Nat) (params : List ℚ) (job : JobResult) :
    (isStatevectorBackend name = true ↔
      "statevector".toList ∈ splitOnChar '_' name)
    ∧ (isStatevectorBackend name = true →
        Gate.measureAll ∉ createCircuit ta name usebarrier depth params
        ∧ successProbability ta name job = successProbabilitySV ta job.probs
        ∧ measurementStatistics ta name job = measurementStatisticsSV ta job)
    ∧ (isStatevectorBackend name = false →
        (createCircuit ta name usebarrier depth params).getLast?
            = some Gate.measureAll
        ∧ successProbability ta name job = successProbabilitySampled ta job.results
        ∧ measurementStatistics ta name job = measurementStatisticsSampled ta job) := by
  refine ⟨?_, ?_, ?_⟩
  · simp [isStatevectorBackend, List.contains_iff_exists_mem_beq, beq_iff_eq]
  · intro h
    refine ⟨?_, by rw [successProbability, if_pos h],
      by rw [measurementStatistics, if_pos h]⟩
    intro hmem
    rw [createCircuit, if_pos h, List.append_nil] at hmem
    rcases List.mem_cons.mp hmem with h1 | h2
    · exact Gate.noConfusion h1
    · rcases List.mem_flatMap.mp h2 with ⟨d, _, hd⟩
      rcases List.mem_append.mp hd with hd1 | hbar2
      · rcases List.mem_append.mp hd1 with hd2 | hmix
        · rcases List.mem_append.mp hd2 with hham | hbar1
          · exact measureAll_not_mem_apply_hamiltonian _ _ hham
          · revert hbar1
            cases usebarrier <;> simp
        · exact measureAll_not_mem_mix_states _ _ hmix
      · revert hbar2
        cases usebarrier <;> simp
  · intro h
    refine ⟨?_, by rw [successProbability, if_neg (by simp [h])],
      by rw [measurementStatistics, if_neg (by simp [h])]⟩
    have hif : (if isStatevectorBackend name = true then ([] : List Gate)
        else [Gate.measureAll]) = [Gate.measureAll] := by
      rw [h]
      simp
    rw [createCircuit, hif, ← List.cons_append, List.getLast?_concat]

/-- C7 witness: on the sampled backend "qasm_simulator" a measurement is
appended as the last circuit element. -/
theorem backend_mode_selection_witness :
    isStatevectorBackend "qasm_simulator".toList = false
    ∧ (createCircuit taUnit "qasm_simulator".toList false 1 [0, 0]).getLast?
        = some Gate.measureAll :=
  ⟨rfl, ((backend_mode_selection taUnit "qasm_simulator".toList false 1 [0, 0]
      ⟨[], []⟩).2.2 rfl).1⟩

theorem nested_foldl_max_flat {α β : Type} (l : List α) (g : α → List β)
    (f : β → WithBot ℚ) (init : WithBot ℚ) :
    l.foldl (fun acc x => (g x).foldl (fun a y => max a (f y)) acc) init
      = (l.flatMap (fun x => (g x).map f)).foldl max init := by
  induction l generalizing init with
  | nil => rfl
  | cons a t ih =>
      rw [List.foldl_cons, List.flatMap_cons, List.foldl_append, ih, List.foldl_map]

theorem init_le_foldl_max (L : List (WithBot ℚ)) (b : WithBot ℚ) :
    b ≤ L.foldl max b := by
  induction L generalizing b with
  | nil => simp
  | cons y t ih =>
      rw [List.foldl_cons]
      exact le_trans (le_max_left b y) (ih (max b y))

theorem le_foldl_max (L : List (WithBot ℚ)) (b x : WithBot ℚ) (hx : x ∈ L) :
    x ≤ L.foldl max b := by
  induction L generalizing b with
  | nil => simp at hx
  | cons y t ih =>
      rw [List.foldl_cons]
      rcases List.mem_cons.mp hx with rfl | hx2
      · exact le_trans (le_max_right b x) (init_le_foldl_max t (max b x))
      · exact ih (max b y) hx2

theorem foldl_max_eq_or_mem (L : List (WithBot ℚ)) (b : WithBot ℚ) :
    L.foldl max b = b ∨ L.foldl max b ∈ L := by
  induction L generalizing b with
  | nil => left; rfl
  | cons y t ih =>
      rw [List.foldl_cons]
      rcases ih (max b y) with h | h
      · rcases max_choice b y with hb | hy
        · left; rw [h, hb]
        · right; rw [h, hy]; exact List.mem_cons_self y t
      · right; exact List.mem_cons_of_mem y h

theorem measurementStatisticsSampled_best_eq (ta : QAOATailAssignment)
    (job : JobResult) :
    (measurementStatisticsSampled ta job).2.2
      = (allMeasuredCosts ta job).foldl max ⊥ :=
  nested_foldl_max_flat job.results (fun res => res.counts)
    (fun kc => ((cost ta (keyString ta.R kc.1) : WithBot ℚ))) ⊥

/-- C8: in sampled mode, `measurementStatistics` returns one expectation per
independent experiment result — the shot-weighted average cost of that
result's measured bitstrings — always `none` for the variance output, and as
best cost the maximum (starting from `⊥ = -inf`) of `cost` over all measured
bitstrings of all experiment results: every measured bitstring's cost is a
lower bound of it, and it is `⊥` or attained by some measured bitstring. -/
theorem measurementStatistics_sampled (ta : QAOATailAssignment)
    (name : List Char) (job : JobResult)
    (h : isStatevectorBackend name = false) :
    (measurementStatistics ta name job).1
      = job.results.map (fun res =>
          ((res.counts.map (fun kc =>
              cost ta (keyString ta.R kc.1) * (kc.2 : ℚ))).sum) / (res.shots : ℚ))
    ∧ (measurementStatistics ta name job).2.1 = none
    ∧ (∀ res ∈ job.results, ∀ kc ∈ res.counts,
        ((cost ta (keyString ta.R kc.1) : WithBot ℚ))
          ≤ (measurementStatistics ta name job).2.2)
    ∧ ((measurementStatistics ta name job).2.2 = ⊥
        ∨ ∃ res ∈ job.results, ∃ kc ∈ res.counts,
            (measurementStatistics ta name job).2.2
              = ((cost ta (keyString ta.R kc.1) : WithBot ℚ))) := by
  have hms : measurementStatistics ta name job
      = measurementStatisticsSampled ta job := by
    rw [measurementStatistics, if_neg (by simp [h])]
  rw [hms]
  refine ⟨?_, rfl, ?_, ?_⟩
  · have hexp : ∀ res : ExperimentResult,
        res.counts.foldl
          (fun E kc =>
            E + cost ta (keyString ta.R kc.1) * (kc.2 : ℚ) / (res.shots : ℚ)) 0
          = ((res.counts.map (fun kc =>
              cost ta (keyString ta.R kc.1) * (kc.2 : ℚ))).sum) / (res.shots : ℚ) := by
      intro res
      rw [foldl_add_eq res.counts
          (fun kc => cost ta (keyString ta.R kc.1) * (kc.2 : ℚ) / (res.shots : ℚ)) 0,
        zero_add,
        sum_map_div res.counts
          (fun kc => cost ta (keyString ta.R kc.1) * (kc.2 : ℚ)) ((res.shots : ℚ))]
    exact congrArg (fun f => List.map f job.results) (funext hexp)
  · intro res hres kc hkc
    rw [measurementStatisticsSampled_best_eq]
    refine le_foldl_max _ _ _ ?_
    exact List.mem_flatMap.mpr ⟨res, hres, List.mem_map.mpr ⟨kc, hkc, rfl⟩⟩
  · rw [measurementStatisticsSampled_best_eq]
    rcases foldl_max_eq_or_mem (allMeasuredCosts ta job) ⊥ with h1 | h1
    · left; exact h1
    · right
      rcases List.mem_flatMap.mp h1 with ⟨res, hres, hmem⟩
      rcases List.mem_map.mp hmem with ⟨kc, hkc, he⟩
      exact ⟨res, hres, kc, hkc, he.symm⟩

/-- C8 witness: the variance output on a concrete sampled job is `none`. -/
theorem measurementStatistics_sampled_witness :
    (measurementStatistics taUnit "qasm_simulator".toList
      ⟨[], [⟨2, [(1, 1), (0, 1)]⟩]⟩).2.1 = none :=
  (measurementStatistics_sampled taUnit "qasm_simulator".toList
    ⟨[], [⟨2, [(1, 1), (0, 1)]⟩]⟩ rfl).2.1

/-- C9: on a sampled-mode job whose single experiment result has empty
counts, `successProbability` silently returns `0` and
`measurementStatistics` silently returns a zero expectation, no variance and
the `-inf` sentinel as best cost — no "no data" failure occurs, contrary to
the claim. -/
theorem extractors_silent_on_empty_counts :
    successProbability taUnit "qasm_simulator".toList ⟨[], [⟨100, []⟩]⟩ = 0
    ∧ measurementStatistics taUnit "qasm_simulator".toList ⟨[], [⟨100, []⟩]⟩
        = ([0], none, ⊥) := by
  constructor
  · rfl
  · rfl

end TailAssignmentModel
